import Mathlib

/-!
Verification of the in-silico PCR engine (insilico_pcr_parallel_multifasta.py).

Python strings are modelled as `List Char`; sets of allowed bases as
`List Char` (membership agrees with Python set membership); the FASTA
generator as a function returning the records yielded so far together with
an optional error (the exception a malformed header raises); fallible CSV
parsing as `Except`.  Machine integers do not occur: every quantity in the
source is a Python arbitrary-precision non-negative index or count, modelled
as `Nat`.
-/

namespace InsilicoPCR

/-! ## Degenerate base model (source: IUPAC table, revcomp, primer_allowed_set) -/

/-- Canonical bases, the fallback set the source uses for a character that is
not an IUPAC code (`IUPAC.get(ch, {'A','C','G','T'})`). -/
def canonical : List Char := ['A', 'C', 'G', 'T']

/-- The IUPAC dictionary of the source: a code maps to its set of compatible
canonical bases; a character that is no key yields `none` (Python dict miss). -/
def IUPAC : Char → Option (List Char)
  | 'A' => some ['A']
  | 'C' => some ['C']
  | 'G' => some ['G']
  | 'T' => some ['T']
  | 'U' => some ['T']
  | 'R' => some ['A', 'G']
  | 'Y' => some ['C', 'T']
  | 'S' => some ['G', 'C']
  | 'W' => some ['A', 'T']
  | 'K' => some ['G', 'T']
  | 'M' => some ['A', 'C']
  | 'B' => some ['C', 'G', 'T']
  | 'D' => some ['A', 'G', 'T']
  | 'H' => some ['A', 'C', 'T']
  | 'V' => some ['A', 'C', 'G']
  | 'N' => some ['A', 'C', 'G', 'T']
  | _ => none

/-- Allowed bases of one primer character: the IUPAC entry of its upper-cased
form, with the universal fallback for unknown codes. -/
def allowedBases (c : Char) : List Char := (IUPAC c.toUpper).getD canonical

/-- Complement table of `revcomp`: `comp.get(b, 'N')` of the source. -/
def compBase : Char → Char
  | 'A' => 'T'
  | 'T' => 'A'
  | 'G' => 'C'
  | 'C' => 'G'
  | 'U' => 'A'
  | 'N' => 'N'
  | _ => 'N'

/-- Source `revcomp`: reverse, upper-case, complement each base. -/
def revcomp (seq : List Char) : List Char :=
  (seq.reverse.map Char.toUpper).map compBase

/-- Source `primer_allowed_set`: the list of allowed-base sets of the
upper-cased primer. -/
def primer_allowed_set (primer : List Char) : List (List Char) :=
  (primer.map Char.toUpper).map (fun ch => (IUPAC ch).getD canonical)

/-- Source `count_mismatches`: positions of `zip(seg, allowed_sets)` whose
base is not in its allowed set. -/
def count_mismatches (seg : List Char) (allowed_sets : List (List Char)) : Nat :=
  ((seg.zip allowed_sets).filter (fun ba => !(ba.2.contains ba.1))).length

/-- Source `find_approx_matches`: the naive sliding-window scan, returning
`(start, end, mismatches)` triples (zero-based half-open) in increasing start
order. -/
def find_approx_matches (seq primer : List Char) (max_mismatch : Nat) :
    List (Nat × Nat × Nat) :=
  if primer.length = 0 ∨ seq.length < primer.length then []
  else
    (List.range (seq.length - primer.length + 1)).filterMap (fun i =>
      let mm := count_mismatches ((seq.drop i).take primer.length)
        (primer_allowed_set primer)
      if mm ≤ max_mismatch then some (i, i + primer.length, mm) else none)

/-! ## Spec-side notions used to state the window-scanner claims -/

/-- Mismatch count of the window at offset `i`, phrased as the spec does: the
positions `j` of the window whose sequence base `s[i+j]` is not in
`allowedBases(p[j])`. -/
def spec_window_mismatches (s p : List Char) (i : Nat) : Nat :=
  ((((s.drop i).take p.length).zip p).filter
    (fun bc => !((allowedBases bc.2).contains bc.1))).length

/-- Brute-force exact substring search, following the spec words of C4: the
offsets at which `p` occurs verbatim in `s`. -/
def exact_occurrences (s p : List Char) : List Nat :=
  (List.range (s.length + 1 - p.length)).filter
    (fun i => (s.drop i).take p.length = p)

/-! ## Bridging lemmas for the scanner -/

theorem count_mismatches_eq_spec (seg p : List Char) :
    count_mismatches seg (primer_allowed_set p) =
      ((seg.zip p).filter (fun bc => !((allowedBases bc.2).contains bc.1))).length := by
  simp only [count_mismatches, primer_allowed_set, List.map_map, List.zip_map_right,
    List.filter_map, List.length_map, Function.comp_def, Prod.map]
  rfl

theorem find_approx_matches_eq_filterMap (s p : List Char) (m : Nat)
    (h : ¬(p.length = 0 ∨ s.length < p.length)) :
    find_approx_matches s p m =
      (List.range (s.length - p.length + 1)).filterMap (fun i =>
        if spec_window_mismatches s p i ≤ m then
          some (i, i + p.length, spec_window_mismatches s p i)
        else none) := by
  rw [find_approx_matches, if_neg h]
  apply List.filterMap_congr
  intro i _
  simp only [count_mismatches_eq_spec, spec_window_mismatches]

theorem filterMap_eq_filter_on {α : Type} (l : List α) (G : α → Option α) (c : α → Bool)
    (h : ∀ a ∈ l, G a = if c a then some a else none) :
    l.filterMap G = l.filter c := by
  induction l with
  | nil => rfl
  | cons a t ih =>
    have ht := ih (fun x hx => h x (List.mem_cons_of_mem a hx))
    rw [List.filterMap_cons, List.filter_cons, h a (List.mem_cons_self a t)]
    by_cases hc : c a
    · simp [hc, ht]
    · simp [hc, ht]

theorem mismatches_zero_iff_eq (seg p : List Char) (hp : ∀ c ∈ p, c ∈ canonical)
    (hlen : seg.length = p.length) :
    (((seg.zip p).filter (fun bc => !((allowedBases bc.2).contains bc.1))).length = 0
      ↔ seg = p) := by
  induction p generalizing seg with
  | nil =>
    cases seg with
    | nil => simp
    | cons sc st => simp at hlen
  | cons pc pt ih =>
    cases seg with
    | nil => simp at hlen
    | cons sc st =>
      have hpc : pc ∈ canonical := hp pc (List.mem_cons_self pc pt)
      have hpt : ∀ c ∈ pt, c ∈ canonical := fun c hc => hp c (List.mem_cons_of_mem pc hc)
      have hlen2 : st.length = pt.length := by simpa using hlen
      have hA : allowedBases pc = [pc] := by
        fin_cases hpc <;> rfl
      have hrec := ih st hpt hlen2
      rw [List.zip_cons_cons]
      constructor
      · intro h0
        rw [List.filter_cons] at h0
        split at h0
        · simp at h0
        · rename_i hq
          have hsc : sc = pc := by
            simpa [hA] using hq
          rw [hsc, hrec.mp h0]
      · intro he
        injection he with h1 h2
        subst h1
        subst h2
        rw [List.filter_cons]
        split
        · rename_i hq
          exfalso
          simp [hA] at hq
        · simpa using hrec.mpr rfl

/-- C1: the window scanner returns the empty list when the primer is empty or
the sequence is shorter than it; otherwise it returns, with strictly
increasing start offsets, exactly one hit `(i, i + L, mm)` for each offset
`i` with `i + L ≤ len(s)` whose mismatch count `mm` (the number of window
positions whose sequence base is not among the allowed bases of the primer
character) is at most the tolerance. -/
theorem find_approx_matches_characterization (s p : List Char) (m : Nat) :
    ((p.length = 0 ∨ s.length < p.length) → find_approx_matches s p m = []) ∧
    (∀ i e mm, ((i, e, mm) ∈ find_approx_matches s p m ↔
      (0 < p.length ∧ i + p.length ≤ s.length ∧ e = i + p.length ∧
        mm = spec_window_mismatches s p i ∧ mm ≤ m))) ∧
    ((find_approx_matches s p m).map (fun h => h.1)).Pairwise (· < ·) := by
  refine ⟨?_, ?_, ?_⟩
  · intro h
    rw [find_approx_matches, if_pos h]
  · intro i e mm
    by_cases hg : p.length = 0 ∨ s.length < p.length
    · rw [find_approx_matches, if_pos hg]
      simp only [List.not_mem_nil, false_iff]
      rintro ⟨h1, h2, -⟩
      omega
    · rw [find_approx_matches_eq_filterMap s p m hg]
      push_neg at hg
      obtain ⟨hL, hsl⟩ := hg
      simp only [List.mem_filterMap, List.mem_range]
      constructor
      · rintro ⟨a, ha, hFa⟩
        split at hFa
        · rename_i hcond
          simp only [Option.some.injEq, Prod.mk.injEq] at hFa
          obtain ⟨rfl, rfl, rfl⟩ := hFa
          exact ⟨by omega, by omega, rfl, rfl, hcond⟩
        · exact absurd hFa (by simp)
      · rintro ⟨h0, hiL, he, hmm, hle⟩
        refine ⟨i, by omega, ?_⟩
        rw [if_pos (hmm ▸ hle)]
        simp [he, hmm]
  · by_cases hg : p.length = 0 ∨ s.length < p.length
    · rw [find_approx_matches, if_pos hg]
      simp
    · rw [find_approx_matches_eq_filterMap s p m hg, List.map_filterMap]
      refine List.pairwise_filterMap.mpr ((List.pairwise_lt_range _).imp ?_)
      intro a b hab
      intro x hx y hy
      split at hx <;> split at hy <;> simp_all

/-- C3 counterexample: the start offsets of the zero-tolerance ATG scan of
CATGCATGC are 1 and 5, not 1 and 4 as the claim states (the claimed pair 1, 4
misreads the first hit triple, whose start is 1 and whose end is 4). -/
theorem scan_CATGCATGC_ATG_offsets :
    (find_approx_matches ("CATGCATGC".toList) ("ATG".toList) 0).map (fun h => h.1) =
      [1, 5] := by decide

/-- C3 (amended): scanning CATGCATGC for ATG with zero mismatch tolerance
yields exactly two hits, at zero-based start offsets 1 and 5 (half-open ends
4 and 8), each with 0 mismatches. -/
theorem scan_CATGCATGC_ATG :
    find_approx_matches ("CATGCATGC".toList) ("ATG".toList) 0 =
      [(1, 4, 0), (5, 8, 0)] := by decide

/-- C4 counterexample: with zero tolerance the scanner still accepts the
degenerate primer N on the sequence A (offset 0), although N is not an exact
substring of A, so the zero-mismatch scan differs from brute-force exact
search. -/
theorem scan_zero_not_exact_on_N :
    (find_approx_matches ['A'] ['N'] 0).map (fun h => h.1) = [0] ∧
      exact_occurrences ['A'] ['N'] = [] := by
  exact ⟨by decide, by decide⟩

/-- C4 (amended): for a nonempty primer all of whose characters are canonical
bases A, C, G, T, the start offsets of the zero-tolerance scan are exactly
the brute-force exact occurrence offsets of the primer in the sequence. -/
theorem scan_zero_eq_exact (s p : List Char) (hne : p ≠ [])
    (hp : ∀ c ∈ p, c ∈ canonical) :
    (find_approx_matches s p 0).map (fun h => h.1) = exact_occurrences s p := by
  have hL : p.length ≠ 0 := fun h => hne (List.length_eq_zero.mp h)
  by_cases hsl : s.length < p.length
  · rw [find_approx_matches, if_pos (Or.inr hsl)]
    have hz : s.length + 1 - p.length = 0 := by omega
    simp [exact_occurrences, hz]
  · have hg : ¬(p.length = 0 ∨ s.length < p.length) := by
      push_neg
      exact ⟨hL, by omega⟩
    have hn : s.length + 1 - p.length = s.length - p.length + 1 := by omega
    rw [find_approx_matches_eq_filterMap s p 0 hg, List.map_filterMap,
      exact_occurrences, hn]
    apply filterMap_eq_filter_on
    intro a ha
    rw [List.mem_range] at ha
    have haL : a + p.length ≤ s.length := by omega
    have hwin : ((s.drop a).take p.length).length = p.length := by
      simp only [List.length_take, List.length_drop]
      omega
    have hzero := mismatches_zero_iff_eq ((s.drop a).take p.length) p hp hwin
    by_cases hc : (s.drop a).take p.length = p
    · have hm : spec_window_mismatches s p a = 0 := by
        rw [spec_window_mismatches]
        exact hzero.mpr hc
      simp [hm, hc]
    · have hm : spec_window_mismatches s p a ≠ 0 := fun h0 => hc (hzero.mp h0)
      have h1 : ¬ (spec_window_mismatches s p a ≤ 0) := by omega
      simp [h1, hc]

/-- C4 witness: concrete instance of the amended equivalence on GATTACA/TA. -/
theorem scan_zero_eq_exact_witness :
    (find_approx_matches ("GATTACA".toList) ("TA".toList) 0).map (fun h => h.1) =
      exact_occurrences ("GATTACA".toList) ("TA".toList) :=
  scan_zero_eq_exact ("GATTACA".toList) ("TA".toList) (by decide) (by decide)

theorem map_fix_of_mem {α : Type} (f : α → α) :
    ∀ (l : List α), (∀ c ∈ l, f c = c) → l.map f = l := by
  intro l
  induction l with
  | nil => intro _; rfl
  | cons a t ih =>
    intro h
    rw [List.map_cons, h a (List.mem_cons_self a t),
      ih (fun x hx => h x (List.mem_cons_of_mem a hx))]

/-- C5: reverseComplement is an involution on sequences over A, C, G, T, N. -/
theorem revcomp_revcomp (s : List Char)
    (h : ∀ c ∈ s, c ∈ (['A', 'C', 'G', 'T', 'N'] : List Char)) :
    revcomp (revcomp s) = s := by
  have key : ∀ c ∈ s, compBase (Char.toUpper (compBase (Char.toUpper c))) = c := by
    intro c hc
    have hm := h c hc
    fin_cases hm <;> rfl
  have hmaps : revcomp (revcomp s) =
      s.map (fun c => compBase (Char.toUpper (compBase (Char.toUpper c)))) := by
    simp [revcomp, List.map_map, List.map_reverse, List.reverse_reverse,
      Function.comp_def]
  rw [hmaps]
  exact map_fix_of_mem _ s key

/-- C5 witness: concrete involution instance on ACGTN. -/
theorem revcomp_revcomp_witness :
    revcomp (revcomp ("ACGTN".toList)) = "ACGTN".toList :=
  revcomp_revcomp ("ACGTN".toList) (by decide)

/-! ## FASTA reader (source: read_fasta) -/

/-- Python str.strip(): drop leading and trailing whitespace. -/
def stripChars (l : List Char) : List Char :=
  ((l.dropWhile Char.isWhitespace).reverse.dropWhile Char.isWhitespace).reverse

/-- Python str.split() with no separator (auxiliary): split on whitespace
runs, dropping empty tokens; `acc` holds the current token reversed. -/
def splitWsAux : List Char → List Char → List (List Char)
  | [], acc => if acc.isEmpty then [] else [acc.reverse]
  | c :: rest, acc =>
    if c.isWhitespace then
      (if acc.isEmpty then [] else [acc.reverse]) ++ splitWsAux rest []
    else splitWsAux rest (c :: acc)

/-- Python str.split() with no separator. -/
def splitWs (l : List Char) : List (List Char) := splitWsAux l []

/-- Message of the Python IndexError raised by `line[1:].split()[0]` on a
header line with no token after the marker. -/
def indexErrorMsg : String := "list index out of range"

/-- Loop of the source `read_fasta` generator: the lines still to process,
the current record id (`none` before the first header), the body parts
collected so far, and the records already yielded.  Returns the records the
generator yields together with the exception (if any) that ends it. -/
def read_fasta_loop :
    List (List Char) → Option (List Char) → List (List Char) →
      List (List Char × List Char) →
      List (List Char × List Char) × Option String
  | [], seq_id, seq_parts, out =>
    (match seq_id with
     | some sid => out ++ [(sid, seq_parts.flatten.map Char.toUpper)]
     | none => out,
     none)
  | line :: rest, seq_id, seq_parts, out =>
    if line.isEmpty then read_fasta_loop rest seq_id seq_parts out
    else if line.head? = some '>' then
      match splitWs (line.drop 1) with
      | [] =>
        (match seq_id with
         | some sid => out ++ [(sid, seq_parts.flatten.map Char.toUpper)]
         | none => out,
         some indexErrorMsg)
      | tok :: _ =>
        read_fasta_loop rest (some tok) []
          (match seq_id with
           | some sid => out ++ [(sid, seq_parts.flatten.map Char.toUpper)]
           | none => out)
    else read_fasta_loop rest seq_id (seq_parts ++ [stripChars line]) out

/-- Source `read_fasta` over a file's lines (newlines already stripped):
the records it yields, and the exception that interrupted it, if any. -/
def read_fasta (lines : List (List Char)) :
    List (List Char × List Char) × Option String :=
  read_fasta_loop lines none [] []

theorem splitWsAux_all_ws (l : List Char) (h : ∀ c ∈ l, c.isWhitespace) :
    splitWsAux l [] = [] := by
  induction l with
  | nil => rfl
  | cons c rest ih =>
    have hc : c.isWhitespace := h c (List.mem_cons_self c rest)
    simp [splitWsAux, hc, ih (fun x hx => h x (List.mem_cons_of_mem c hx))]

theorem read_fasta_loop_isSome (lines : List (List Char)) :
    ∀ (sid : Option (List Char)) (parts : List (List Char))
      (out : List (List Char × List Char)) (line : List Char),
      line ∈ lines → line.head? = some '>' →
      (∀ c ∈ line.drop 1, c.isWhitespace) →
      ((read_fasta_loop lines sid parts out).2).isSome = true := by
  induction lines with
  | nil =>
    intro _ _ _ line hmem _ _
    exact absurd hmem (List.not_mem_nil line)
  | cons l rest ih =>
    intro sid parts out line hmem hhead hws
    rcases List.mem_cons.mp hmem with rfl | hmem2
    · cases line with
      | nil => simp at hhead
      | cons a t =>
        have ha : a = '>' := by simpa using hhead
        subst ha
        have hsplit : splitWsAux t [] = [] := splitWsAux_all_ws t (by simpa using hws)
        simp [read_fasta_loop, splitWs, hsplit]
    · by_cases h1 : l.isEmpty
      · simp only [read_fasta_loop, h1, if_true]
        exact ih _ _ _ line hmem2 hhead hws
      · by_cases h2 : l.head? = some '>'
        · cases hsp : splitWsAux l.tail [] with
          | nil => simp [read_fasta_loop, h1, h2, splitWs, List.drop_one, hsp]
          | cons tok toks =>
            simp only [read_fasta_loop, splitWs, List.drop_one, hsp]
            simp only [h1, Bool.false_eq_true, if_false, h2, if_true]
            exact ih _ _ _ line hmem2 hhead hws
        · simp only [read_fasta_loop, h1, h2, Bool.false_eq_true, if_false]
          exact ih _ _ _ line hmem2 hhead hws

/-- C10: any file containing a record-marker line that consists of the
marker with no whitespace-delimited token after it makes the sequence reader
raise an exception (modelled as the error component of `read_fasta`) instead
of completing normally. -/
theorem read_fasta_fails_on_bare_marker (lines : List (List Char))
    (line : List Char) (hmem : line ∈ lines)
    (hhead : line.head? = some '>')
    (hws : ∀ c ∈ line.drop 1, c.isWhitespace) :
    ((read_fasta lines).2).isSome = true :=
  read_fasta_loop_isSome lines none [] [] line hmem hhead hws

/-- C10 witness: the one-line file consisting of a bare marker makes the
reader fail. -/
theorem read_fasta_fails_on_bare_marker_witness :
    ((read_fasta [['>']]).2).isSome = true :=
  read_fasta_fails_on_bare_marker [['>']] ['>'] (by decide) (by decide) (by decide)

/-! ## Pair evaluation (source: process_pair) -/

/-- One primer pair as built by `parse_primer_csv`. -/
structure PrimerPair where
  pair_id : List Char
  forward : List Char
  reverse : List Char
deriving DecidableEq, Repr

/-- One amplicon dictionary built by `process_pair` (the success shape). -/
structure Amplicon where
  pair_id : List Char
  sample_name : String
  fasta_file : String
  seq_id : List Char
  fwd_start_1based : Nat
  fwd_end_1based : Nat
  rev_start_1based : Nat
  rev_end_1based : Nat
  fwd_mismatches : Nat
  rev_mismatches : Nat
  amplicon_length : Nat
  amplicon_sequence : List Char
  fwd_primer : List Char
  rev_primer : List Char
deriving DecidableEq, Repr

/-- One element of the list `process_pair` returns: an amplicon dictionary
or the error note appended when reading one FASTA file raised. -/
inductive ResultEntry where
  | amp : Amplicon → ResultEntry
  | err : List Char → String → ResultEntry
deriving DecidableEq, Repr

/-- One FASTA file handed to `process_pair`: its path, `Path.name`,
`Path.stem`, and its lines. -/
structure FastaFile where
  path : String
  name : String
  stem : String
  lines : List (List Char)
deriving DecidableEq, Repr

/-- Inner loops of `process_pair` over one sequence record: the sequence is
upper-cased, both primers are scanned on it (`revrc` is the reverse
complement of the reverse primer, computed once per pair), and each
forward/reverse hit combination with the forward site not right of the
reverse site and length within bounds yields an amplicon. -/
def pair_amplicons (pid fwd_pr rev_pr revrc : List Char) (stem name : String)
    (sid seq : List Char) (max_mismatch min_len max_len : Nat) : List Amplicon :=
  let sequ := seq.map Char.toUpper
  let f_hits := find_approx_matches sequ fwd_pr max_mismatch
  let r_hits := find_approx_matches sequ revrc max_mismatch
  f_hits.flatMap (fun f =>
    r_hits.filterMap (fun r =>
      if f.1 ≤ r.1 then
        if r.2.1 - f.1 < min_len ∨ r.2.1 - f.1 > max_len then none
        else some {
          pair_id := pid, sample_name := stem, fasta_file := name, seq_id := sid,
          fwd_start_1based := f.1 + 1, fwd_end_1based := f.2.1,
          rev_start_1based := r.1 + 1, rev_end_1based := r.2.1,
          fwd_mismatches := f.2.2, rev_mismatches := r.2.2,
          amplicon_length := r.2.1 - f.1,
          amplicon_sequence := (sequ.drop f.1).take (r.2.1 - f.1),
          fwd_primer := fwd_pr, rev_primer := rev_pr }
      else none))

/-- Body of the per-file loop of `process_pair`: the amplicons of every
record the reader yields for this file, followed by the error note when the
read raised. -/
def process_file (pair : PrimerPair) (revrc : List Char)
    (max_mismatch min_len max_len : Nat) (f : FastaFile) : List ResultEntry :=
  ((read_fasta f.lines).1.flatMap (fun r =>
    (pair_amplicons pair.pair_id pair.forward pair.reverse revrc f.stem f.name
      r.1 r.2 max_mismatch min_len max_len).map ResultEntry.amp))
  ++ (match (read_fasta f.lines).2 with
      | none => []
      | some e =>
        [ResultEntry.err pair.pair_id ("Error reading " ++ f.path ++ ": " ++ e)])

/-- Source `process_pair`: one primer pair evaluated over all FASTA files. -/
def process_pair (pair : PrimerPair) (fasta_files : List FastaFile)
    (max_mismatch min_len max_len : Nat) : List Char × List ResultEntry :=
  (pair.pair_id,
   fasta_files.flatMap
     (process_file pair (revcomp pair.reverse) max_mismatch min_len max_len))

/-- C2: every amplicon the pair evaluator emits for one scanned sequence has
its forward start not right of its reverse start, length equal to the
distance from the forward start to the reverse end, length within the
configured bounds, and a sequence equal to the corresponding slice of the
scanned (upper-cased) sequence. -/
theorem amplicon_invariants (pid fwd_pr rev_pr revrc : List Char)
    (stem name : String) (sid seq : List Char) (mm mn mx : Nat) (a : Amplicon)
    (ha : a ∈ pair_amplicons pid fwd_pr rev_pr revrc stem name sid seq mm mn mx) :
    a.fwd_start_1based ≤ a.rev_start_1based ∧
    a.amplicon_length = a.rev_end_1based - (a.fwd_start_1based - 1) ∧
    mn ≤ a.amplicon_length ∧ a.amplicon_length ≤ mx ∧
    a.amplicon_sequence =
      ((seq.map Char.toUpper).drop (a.fwd_start_1based - 1)).take
        a.amplicon_length := by
  simp only [pair_amplicons, List.mem_flatMap, List.mem_filterMap] at ha
  obtain ⟨f, hf, r, hr, hcond⟩ := ha
  split at hcond
  · split at hcond
    · exact absurd hcond (by simp)
    · rename_i hle hrange
      simp only [Option.some.injEq] at hcond
      subst hcond
      refine ⟨by simpa using hle, by simp, by dsimp only; omega,
        by dsimp only; omega, by simp⟩
  · exact absurd hcond (by simp)

/-- Amplicon of the C2 witness evaluation. -/
def ampW : Amplicon :=
  { pair_id := "p".toList, sample_name := "s", fasta_file := "f.fa",
    seq_id := "id".toList,
    fwd_start_1based := 1, fwd_end_1based := 3,
    rev_start_1based := 4, rev_end_1based := 6,
    fwd_mismatches := 0, rev_mismatches := 0,
    amplicon_length := 6, amplicon_sequence := "AAATTT".toList,
    fwd_primer := "AAA".toList, rev_primer := "AAA".toList }

/-- C2 witness: concrete amplicon of the pair AAA/AAA on AAATTT. -/
theorem amplicon_invariants_witness :
    ampW.fwd_start_1based ≤ ampW.rev_start_1based ∧
    ampW.amplicon_length = ampW.rev_end_1based - (ampW.fwd_start_1based - 1) ∧
    1 ≤ ampW.amplicon_length ∧ ampW.amplicon_length ≤ 10 ∧
    ampW.amplicon_sequence =
      (("AAATTT".toList.map Char.toUpper).drop (ampW.fwd_start_1based - 1)).take
        ampW.amplicon_length :=
  amplicon_invariants "p".toList "AAA".toList "AAA".toList "TTT".toList "s"
    "f.fa" "id".toList "AAATTT".toList 0 1 10 ampW (by decide)

/-- C7: when reading one FASTA file raises, the pair evaluation records an
error entry for that file as the last entry of its per-file contribution,
keeps evaluating the remaining files, and still returns the entries of the
files before and after it exactly as if each had been evaluated on its
own. -/
theorem process_pair_error_recovery (pair : PrimerPair)
    (pre post : List FastaFile) (bad : FastaFile) (e : String)
    (he : (read_fasta bad.lines).2 = some e) (mm mn mx : Nat) :
    (process_pair pair (pre ++ bad :: post) mm mn mx).2 =
      (process_pair pair pre mm mn mx).2
        ++ process_file pair (revcomp pair.reverse) mm mn mx bad
        ++ (process_pair pair post mm mn mx).2 ∧
    (process_file pair (revcomp pair.reverse) mm mn mx bad).getLast? =
      some (ResultEntry.err pair.pair_id
        ("Error reading " ++ bad.path ++ ": " ++ e)) := by
  constructor
  · simp [process_pair, List.flatMap_append, List.flatMap_cons, List.append_assoc]
  · rw [process_file, he]
    exact List.getLast?_concat _

/-- Primer pair of the C7 witness. -/
def pairW : PrimerPair :=
  { pair_id := "p1".toList, forward := "AAA".toList, reverse := "AAA".toList }

/-- Readable FASTA file before the corrupted one in the C7 witness. -/
def fileA : FastaFile :=
  { path := "a.fa", name := "a.fa", stem := "a",
    lines := [">s1".toList, "AAATTT".toList] }

/-- Corrupted FASTA file of the C7 witness: a bare record marker. -/
def fileBad : FastaFile :=
  { path := "bad.fa", name := "bad.fa", stem := "bad", lines := [['>']] }

/-- Readable FASTA file after the corrupted one in the C7 witness. -/
def fileB : FastaFile :=
  { path := "b.fa", name := "b.fa", stem := "b",
    lines := [">s2".toList, "AAATTT".toList] }

/-- C7 witness: concrete run with a corrupted file between two readable
ones. -/
theorem process_pair_error_recovery_witness :
    (process_pair pairW ([fileA] ++ fileBad :: [fileB]) 0 1 10).2 =
      (process_pair pairW [fileA] 0 1 10).2
        ++ process_file pairW (revcomp pairW.reverse) 0 1 10 fileBad
        ++ (process_pair pairW [fileB] 0 1 10).2 ∧
    (process_file pairW (revcomp pairW.reverse) 0 1 10 fileBad).getLast? =
      some (ResultEntry.err pairW.pair_id
        ("Error reading " ++ fileBad.path ++ ": " ++ indexErrorMsg)) :=
  process_pair_error_recovery pairW [fileA] [fileB] fileBad indexErrorMsg
    (by decide) 0 1 10

/-! ## Primer CSV parser (source: parse_primer_csv) -/

/-- Python str.lower(), per character. -/
def py_lower (s : List Char) : List Char := s.map Char.toLower

/-- Python str.upper(), per character. -/
def py_upper (s : List Char) : List Char := s.map Char.toUpper

/-- Boolean prefix test used by the substring test below. -/
def leadsWith : List Char → List Char → Bool
  | [], _ => true
  | _ :: _, [] => false
  | a :: as, b :: bs => a = b && leadsWith as bs

/-- Python substring containment `k in h`. -/
def containsSub (needle : List Char) : List Char → Bool
  | [] => needle.isEmpty
  | c :: rest => leadsWith needle (c :: rest) || containsSub needle rest

/-- Forward-column keywords of `parse_primer_csv`. -/
def fwdKeys : List (List Char) :=
  ["forward".toList, "fwd".toList, "left".toList, "primer1".toList,
   "primer_fwd".toList]

/-- Reverse-column keywords of `parse_primer_csv`. -/
def revKeys : List (List Char) :=
  ["reverse".toList, "rev".toList, "right".toList, "primer2".toList,
   "primer_rev".toList]

/-- Identifier-column keywords of `parse_primer_csv`. -/
def idKeys : List (List Char) :=
  ["pair".toList, "id".toList, "pair_id".toList, "name".toList]

/-- Column-detection loop of `parse_primer_csv`: the last lowered header
containing one of the keywords, if any. -/
def detect_col (keys : List (List Char)) (headers : List (List Char)) :
    Option (List Char) :=
  headers.foldl
    (fun acc h => if keys.any (fun k => containsSub k h) then some h else acc)
    none

/-- Python `row.get(col, '')` where `row` is the DictReader dict of one data
row: the dict maps each fieldname (original case, last duplicate winning) to
the value at its position, so the lookup scans the zipped fieldnames from
the back; a `col` that is no fieldname of the row yields the empty string
(the source would fail later on a physically short row; no claim exercises
that). -/
def rowGet (fieldnames row : List (List Char)) (col : List Char) : List Char :=
  match (fieldnames.zip row).reverse.find? (fun kv => kv.1 = col) with
  | some kv => kv.2
  | none => []

/-- Identifier cell of one row after stripping: empty when no identifier
column was detected (`row.get(id_col, '').strip() if id_col else ''`). -/
def row_pid0 (fieldnames row : List (List Char)) (id_col : Option (List Char)) :
    List Char :=
  match id_col with
  | some c => stripChars (rowGet fieldnames row c)
  | none => []

/-- Per-row body of the `parse_primer_csv` loop; `idx` is the 1-based
physical row index `enumerate(reader, start=1)` assigns. -/
def parse_row (fieldnames : List (List Char)) (fwd_col rev_col : List Char)
    (id_col : Option (List Char)) (idx : Nat) (row : List (List Char)) :
    Option PrimerPair :=
  let fwd := stripChars (rowGet fieldnames row fwd_col)
  let rv := stripChars (rowGet fieldnames row rev_col)
  if fwd.isEmpty ∨ rv.isEmpty then none
  else
    let pid0 := row_pid0 fieldnames row id_col
    let pid :=
      if pid0.isEmpty then "pair_".toList ++ (toString idx).toList else pid0
    some { pair_id := pid, forward := py_upper fwd, reverse := py_upper rv }

/-- Source `parse_primer_csv` at the level of already-split rows: the first
row is the header (`reader.fieldnames`), the rest are the physical data
rows; `Except.error` models its two `ValueError` exits. -/
def parse_primer_csv (table : List (List (List Char))) :
    Except String (List PrimerPair) :=
  match table with
  | [] => Except.error "Primer CSV is empty or malformed."
  | fieldnames :: rows =>
    let headers := fieldnames.map py_lower
    let fwd_col := detect_col fwdKeys headers
    let rev_col := detect_col revKeys headers
    let id_col := detect_col idKeys headers
    match fwd_col, rev_col with
    | some fc, some rc =>
      Except.ok ((List.enumFrom 1 rows).filterMap
        (fun ir => parse_row fieldnames fc rc id_col ir.1 ir.2))
    | _, _ =>
      Except.error "Could not detect forward/reverse columns in primer CSV."

/-- C6: on the mixed-case header Primer_Fwd,Primer_Rev the columns are
detected case-insensitively, but the row values are then looked up under the
lowered header name, which is not a key of the row dicts (those keep the
original header case), so every row reads empty forward/reverse values and
is skipped: the parse returns no pairs at all instead of pair_1 and
pair_2. -/
theorem parse_primer_csv_mixed_case_header :
    parse_primer_csv
      [["Primer_Fwd".toList, "Primer_Rev".toList],
       ["AAA".toList, "TTT".toList],
       ["CCC".toList, "GGG".toList]] = Except.ok [] := by rfl

theorem parse_row_shape (fieldnames : List (List Char)) (fc rc : List Char)
    (ic : Option (List Char)) (idx : Nat) (row : List (List Char))
    (pr : PrimerPair) (h : parse_row fieldnames fc rc ic idx row = some pr) :
    pr.pair_id.isEmpty = false ∧ pr.forward.isEmpty = false ∧
      pr.reverse.isEmpty = false := by
  rw [parse_row] at h
  split at h
  · exact absurd h (by simp)
  · rename_i hne
    push_neg at hne
    obtain ⟨hf, hr⟩ := hne
    simp only [Option.some.injEq] at h
    subst h
    refine ⟨?_, ?_, ?_⟩
    · dsimp only
      split
      · rfl
      · rename_i hp
        simpa using hp
    · dsimp only [py_upper]
      simpa using hf
    · dsimp only [py_upper]
      simpa using hr

/-- C8 counterexample: two rows may repeat an explicit identifier, so the
pair_id of a parsed pair is not unique within the returned list. -/
theorem parse_primer_csv_duplicate_ids :
    parse_primer_csv
      [["id".toList, "fwd".toList, "rev".toList],
       ["X".toList, "AAA".toList, "TTT".toList],
       ["X".toList, "CCC".toList, "GGG".toList]] =
      Except.ok
        [{ pair_id := "X".toList, forward := "AAA".toList,
           reverse := "TTT".toList },
         { pair_id := "X".toList, forward := "CCC".toList,
           reverse := "GGG".toList }] := by rfl

/-- C8 (amended): every pair the parser returns has a non-empty pair_id and
non-empty forward and reverse sequences; a row whose forward or reverse
value strips to empty yields no pair; a kept row whose identifier value is
missing or empty receives the default identifier pair_<idx> built from its
1-based physical row index.  (The identifiers need not be unique: rows may
repeat an explicit identifier.) -/
theorem parse_primer_csv_row_laws :
    (∀ (fieldnames : List (List Char)) (rows : List (List (List Char)))
       (pairs : List PrimerPair),
       parse_primer_csv (fieldnames :: rows) = Except.ok pairs →
       ∀ pr ∈ pairs, pr.pair_id.isEmpty = false ∧ pr.forward.isEmpty = false ∧
         pr.reverse.isEmpty = false) ∧
    (∀ (fieldnames : List (List Char)) (fc rc : List Char)
       (ic : Option (List Char)) (idx : Nat) (row : List (List Char)),
       ((stripChars (rowGet fieldnames row fc)).isEmpty = true ∨
         (stripChars (rowGet fieldnames row rc)).isEmpty = true) →
       parse_row fieldnames fc rc ic idx row = none) ∧
    (∀ (fieldnames : List (List Char)) (fc rc : List Char)
       (ic : Option (List Char)) (idx : Nat) (row : List (List Char)),
       (stripChars (rowGet fieldnames row fc)).isEmpty = false →
       (stripChars (rowGet fieldnames row rc)).isEmpty = false →
       (row_pid0 fieldnames row ic).isEmpty = true →
       parse_row fieldnames fc rc ic idx row =
         some { pair_id := "pair_".toList ++ (toString idx).toList,
                forward := py_upper (stripChars (rowGet fieldnames row fc)),
                reverse := py_upper (stripChars (rowGet fieldnames row rc)) }) := by
  refine ⟨?_, ?_, ?_⟩
  · intro fieldnames rows pairs h pr hpr
    cases hfc : detect_col fwdKeys (fieldnames.map py_lower) with
    | none =>
      rw [parse_primer_csv] at h
      simp only [hfc] at h
      exact absurd h (by simp)
    | some fc =>
      cases hrc : detect_col revKeys (fieldnames.map py_lower) with
      | none =>
        rw [parse_primer_csv] at h
        simp only [hfc, hrc] at h
        exact absurd h (by simp)
      | some rc =>
        rw [parse_primer_csv] at h
        simp only [hfc, hrc, Except.ok.injEq] at h
        subst h
        rw [List.mem_filterMap] at hpr
        obtain ⟨ir, _, hpr2⟩ := hpr
        exact parse_row_shape fieldnames fc rc _ ir.1 ir.2 pr hpr2
  · intro fieldnames fc rc ic idx row h
    rw [parse_row]
    rw [if_pos ?_]
    simpa using h
  · intro fieldnames fc rc ic idx row hf hr hid
    rw [parse_row]
    rw [if_neg ?_]
    · simp only [row_pid0] at hid
      simp [row_pid0, hid]
    · simp [hf, hr]

/-! ## Identifier sanitizer and output naming (source: safe_name, run_parallel) -/

/-- Characters the sanitizer keeps: the regex class [A-Za-z0-9_.-]. -/
def okChar (c : Char) : Bool :=
  ('A' ≤ c ∧ c ≤ 'Z') ∨ ('a' ≤ c ∧ c ≤ 'z') ∨ ('0' ≤ c ∧ c ≤ '9') ∨
    c = '_' ∨ c = '.' ∨ c = '-'

/-- Scanner of `safe_name`: the flag records whether the previous character
was part of a run of disallowed characters (whose replacement underscore was
already emitted). -/
def safe_name_aux : Bool → List Char → List Char
  | _, [] => []
  | inRun, c :: rest =>
    if okChar c then c :: safe_name_aux false rest
    else if inRun then safe_name_aux true rest
    else '_' :: safe_name_aux true rest

/-- Source `safe_name`: `re.sub` of the pattern [^A-Za-z0-9_.-]+ with one
underscore, i.e. every maximal run of characters outside the class becomes a
single underscore. -/
def safe_name (s : List Char) : List Char := safe_name_aux false s

/-- Per-character sanitizer following the claim's words: each character
outside the class is replaced by its own underscore. -/
def sanitize_per_char (s : List Char) : List Char :=
  s.map (fun c => if okChar c then c else '_')

/-- Name of the per-pair collection file `run_parallel` writes
(`f"{safe}_amplicons.fasta"`), relative to the output directory. -/
def pair_outfile (pid : List Char) : List Char :=
  safe_name pid ++ "_amplicons.fasta".toList

/-- C9 counterexample: safe_name collapses the run of two disallowed
characters inside a!!b to one underscore, while the claimed per-character
replacement yields two. -/
theorem safe_name_collapses_runs :
    safe_name "a!!b".toList = "a_b".toList ∧
      sanitize_per_char "a!!b".toList = "a__b".toList :=
  ⟨rfl, rfl⟩

theorem safe_name_aux_chars :
    ∀ (s : List Char) (b : Bool), ∀ c ∈ safe_name_aux b s, okChar c = true := by
  intro s
  induction s with
  | nil =>
    intro b c hc
    simp [safe_name_aux] at hc
  | cons a t ih =>
    intro b c hc
    rw [safe_name_aux] at hc
    by_cases hok : okChar a
    · rw [if_pos hok] at hc
      rcases List.mem_cons.mp hc with rfl | hc2
      · exact hok
      · exact ih false c hc2
    · rw [if_neg hok] at hc
      cases b with
      | true =>
        rw [if_pos rfl] at hc
        exact ih true c hc
      | false =>
        rw [if_neg (by simp)] at hc
        rcases List.mem_cons.mp hc with rfl | hc2
        · rfl
        · exact ih true c hc2

theorem safe_name_fix :
    ∀ (s : List Char), (∀ c ∈ s, okChar c = true) → safe_name s = s := by
  intro s
  induction s with
  | nil => intro _; rfl
  | cons a t ih =>
    intro h
    have ha := h a (List.mem_cons_self a t)
    have ht := ih (fun x hx => h x (List.mem_cons_of_mem a hx))
    show safe_name_aux false (a :: t) = a :: t
    rw [safe_name_aux, if_pos ha]
    exact congrArg (a :: ·) ht

/-- C9 (amended): safe_name replaces every maximal run of characters outside
[A-Za-z0-9_.-] with a single underscore; consequently every character of
safe_name(s) lies in the class, a string already inside the class is left
unchanged, and the per-pair collection file is named from the sanitized
pair_id suffixed with _amplicons plus the collection file extension. -/
theorem safe_name_laws :
    (∀ (s : List Char), ∀ c ∈ safe_name s, okChar c = true) ∧
    (∀ (s : List Char), (∀ c ∈ s, okChar c = true) → safe_name s = s) ∧
    (∀ (pid : List Char),
      pair_outfile pid = safe_name pid ++ "_amplicons.fasta".toList) :=
  ⟨fun s c hc => safe_name_aux_chars s false c hc, safe_name_fix,
   fun _ => rfl⟩

end InsilicoPCR
